import Mathlib

/-!
Verification of the `wyrm` ring buffer (`src/wyrm/ringbuffer.py`).

The Python class `RingBuffer` stores a 2D numpy array of shape
`(capacity, channels)`.  Rows are opaque to every operation (`append` and
`get` only slice along the first axis), so a row is modelled as an abstract
element of a type `α`, and the storage as a `List α` of length `capacity`.
Numpy slice assignment `a[i:i+k] = chunk` (with `i + k ≤ len(a)`) is the
list `setSlice` below; `a[j:]` is `List.drop j`; `a[:j]` is `List.take j`;
negative slice starts `a[-l:]` (with `l ≥ 1`) are `a[len(a)-l:]`.
-/

namespace Wyrm

/-- State of the Python `RingBuffer`: `self.shape[0]` (the row capacity),
`self.data` (the storage, one entry per row), `self.full`, `self.idx`.
The `channels` component of `shape` never influences `append`/`get` and is
kept only in the construction model `RingBuffer.make`. -/
structure RingBuffer (α : Type) where
  capacity : Nat
  data : List α
  full : Bool
  idx : Nat
  deriving Repr, DecidableEq

variable {α : Type}

/-- Numpy slice assignment `xs[i : i + len(ys)] = ys` (faithful when
`i + len(ys) ≤ len(xs)`, which holds at every call site under the
buffer's length invariant). -/
def setSlice (xs : List α) (i : Nat) (ys : List α) : List α :=
  xs.take i ++ ys ++ xs.drop (i + ys.length)

/-- The last `n` entries of `xs` (all of `xs` when `n ≥ len(xs)`):
Python `xs[-n:]` for `n ≥ 1`, i.e. `xs[len(xs)-n:]`. -/
def takeLast (n : Nat) (xs : List α) : List α :=
  xs.drop (xs.length - n)

/-- Model of `np.empty(shape)` for a 2D `shape`: numpy raises
`ValueError: negative dimensions are not allowed` on a negative dimension
and otherwise allocates `rows` uninitialized rows (modelled with a
placeholder element `dflt`; the buffer invariants keep uninitialized rows
out of every `get` result). -/
def npEmpty (rows cols : Int) (dflt : α) : Except String (List α) :=
  if rows < 0 ∨ cols < 0 then Except.error "negative dimensions are not allowed"
  else Except.ok (List.replicate rows.toNat dflt)

/-- Model of `RingBuffer.__init__(self, shape)`: stores the shape, allocates
`np.empty(shape)`, sets `full = False`, `idx = 0`.  The constructor performs
no validation of its own; the only failure is numpy's rejection of negative
dimensions. -/
def RingBuffer.make (shape : Int × Int) (dflt : α) : Except String (RingBuffer α) :=
  (npEmpty shape.1 shape.2 dflt).map
    (fun d => { capacity := shape.1.toNat, data := d, full := false, idx := 0 })

/-- A freshly constructed buffer of capacity `C` (the `Except.ok` payload of
`RingBuffer.make` for a non-negative shape). -/
def fresh (C : Nat) (dflt : α) : RingBuffer α :=
  { capacity := C, data := List.replicate C dflt, full := false, idx := 0 }

/-- Model of `RingBuffer.append(self, data)`, line for line:

* `if len(data) > self.shape[0]: data = data[-self.shape[0]:]` — note that
  for `shape[0] = 0` the Python slice `data[-0:]` is `data[0:]`, i.e. keeps
  everything (and the subsequent line `self.data[:l2] = data[l1:]` then
  raises a numpy broadcast error; capacity 0 is outside every claim, which
  all assume capacity ≥ 1);
* `if len(data) == 0: return`;
* `if self.idx + len(data) < self.shape[0]:` — copy in place, advance `idx`;
* else — wrap: `self.full = True; l1 = self.shape[0] - self.idx;
  l2 = len(data) - l1; self.data[-l1:] = data[:l1];
  self.data[:l2] = data[l1:]; self.idx = l2`
  (`self.data[-l1:]` starts at `len(self.data) - l1`). -/
def RingBuffer.append (rb : RingBuffer α) (d : List α) : RingBuffer α :=
  let d := if rb.capacity < d.length then
             (if rb.capacity = 0 then d else takeLast rb.capacity d)
           else d
  if d.length = 0 then rb
  else if rb.idx + d.length < rb.capacity then
    { rb with data := setSlice rb.data rb.idx d, idx := rb.idx + d.length }
  else
    let l1 := rb.capacity - rb.idx
    let l2 := d.length - l1
    { rb with
        full := true,
        data := setSlice (setSlice rb.data (rb.data.length - l1) (d.take l1)) 0 (d.drop l1),
        idx := l2 }

/-- Model of `RingBuffer.get(self)`: if full, `np.concatenate([self.data[self.idx:],
self.data[:self.idx]])`; otherwise `self.data[:self.idx].copy()` (the copy is
identity on immutable lists). -/
def RingBuffer.get (rb : RingBuffer α) : List α :=
  if rb.full then rb.data.drop rb.idx ++ rb.data.take rb.idx
  else rb.data.take rb.idx

/-- A sequence of `append` calls, oldest first. -/
def appendAll (rb : RingBuffer α) (chunks : List (List α)) : RingBuffer α :=
  chunks.foldl RingBuffer.append rb

/-! Basic facts about the embedding. -/

theorem append_nil (rb : RingBuffer α) : rb.append [] = rb := by
  simp [RingBuffer.append]

theorem capacity_append (rb : RingBuffer α) (d : List α) :
    (rb.append d).capacity = rb.capacity := by
  simp only [RingBuffer.append]
  repeat' split
  all_goals rfl

theorem full_append_of_full (rb : RingBuffer α) (d : List α) (h : rb.full = true) :
    (rb.append d).full = true := by
  simp only [RingBuffer.append]
  repeat' split
  all_goals simp [h]

theorem takeLast_eq_self (n : Nat) (xs : List α) (h : xs.length ≤ n) :
    takeLast n xs = xs := by
  simp [takeLast, Nat.sub_eq_zero_of_le h]

theorem length_takeLast (n : Nat) (xs : List α) :
    (takeLast n xs).length = min n xs.length := by
  simp only [takeLast, List.length_drop]
  omega

theorem takeLast_append_of_le (n : Nat) (a b : List α) (h : n ≤ b.length) :
    takeLast n (a ++ b) = takeLast n b := by
  simp only [takeLast, List.length_append]
  rw [show a.length + b.length - n = a.length + (b.length - n) by omega, List.drop_append]

theorem takeLast_append_of_ge (n : Nat) (a b : List α) (h : b.length ≤ n) :
    takeLast n (a ++ b) = takeLast (n - b.length) a ++ b := by
  simp only [takeLast, List.length_append]
  rw [List.drop_append_of_le_length (by omega)]
  congr 2
  omega

theorem takeLast_takeLast (m n : Nat) (xs : List α) (h : m ≤ n) :
    takeLast m (takeLast n xs) = takeLast m xs := by
  simp only [takeLast, List.length_drop, List.drop_drop]
  congr 1
  omega

theorem length_get (rb : RingBuffer α) (hD : rb.data.length = rb.capacity)
    (hi : rb.idx ≤ rb.capacity) :
    rb.get.length = if rb.full then rb.capacity else rb.idx := by
  simp only [RingBuffer.get]
  split <;> simp <;> omega

/-- When nothing is truncated away and the chunk fits strictly below the
capacity, `append` takes the simple branch and splices the chunk in at
`idx`. -/
theorem append_simple_state (rb : RingBuffer α) (d : List α)
    (hne : d.length ≠ 0) (hs : rb.idx + d.length < rb.capacity) :
    rb.append d = { rb with
      data := rb.data.take rb.idx ++ d ++ rb.data.drop (rb.idx + d.length),
      idx := rb.idx + d.length } := by
  have hdC : ¬ rb.capacity < d.length := by omega
  simp only [RingBuffer.append, if_neg hdC, if_neg hne, if_pos hs, setSlice]

/-- When nothing is truncated away and the chunk reaches (or passes) the end
of storage, `append` takes the wrap branch; the resulting storage is the
tail of the chunk, then the still-live middle of the old storage, then the
head of the chunk. -/
theorem append_wrap_state (rb : RingBuffer α) (d : List α)
    (hD : rb.data.length = rb.capacity) (hi : rb.idx < rb.capacity)
    (hne : d.length ≠ 0) (hd : d.length ≤ rb.capacity)
    (hw : rb.capacity ≤ rb.idx + d.length) :
    rb.append d = { rb with
      full := true,
      data := d.drop (rb.capacity - rb.idx)
                ++ (rb.data.take rb.idx).drop (rb.idx + d.length - rb.capacity)
                ++ d.take (rb.capacity - rb.idx),
      idx := rb.idx + d.length - rb.capacity } := by
  have hdC : ¬ rb.capacity < d.length := by omega
  have hns : ¬ rb.idx + d.length < rb.capacity := by omega
  simp only [RingBuffer.append, if_neg hdC, if_neg hne, if_neg hns]
  have h1 : rb.data.length - (rb.capacity - rb.idx) = rb.idx := by omega
  have h2 : (d.take (rb.capacity - rb.idx)).length = rb.capacity - rb.idx := by
    simp; omega
  have h3 : setSlice rb.data rb.idx (d.take (rb.capacity - rb.idx))
      = rb.data.take rb.idx ++ d.take (rb.capacity - rb.idx) := by
    simp only [setSlice, h2]
    rw [show rb.idx + (rb.capacity - rb.idx) = rb.capacity by omega, ← hD,
      List.drop_length, List.append_nil]
  rw [h1, h3]
  simp only [setSlice, List.take_zero, List.nil_append, Nat.zero_add,
    List.length_drop]
  rw [List.drop_append_of_le_length (by simp; omega),
    show d.length - (rb.capacity - rb.idx) = rb.idx + d.length - rb.capacity by omega]
  simp [List.append_assoc]

/-- Oversized chunks: `append` behaves as `append` of the last `capacity`
rows of the chunk. -/
theorem append_trunc (rb : RingBuffer α) (d : List α)
    (hC : 1 ≤ rb.capacity) (hlong : rb.capacity < d.length) :
    rb.append d = rb.append (takeLast rb.capacity d) := by
  have hC0 : ¬ rb.capacity = 0 := by omega
  have hlen : (takeLast rb.capacity d).length = rb.capacity := by
    rw [length_takeLast]; omega
  conv =>
    lhs
    rw [RingBuffer.append]
  simp only [if_pos hlong, if_neg hC0]
  conv =>
    rhs
    rw [RingBuffer.append]
  rw [if_neg (by omega : ¬ rb.capacity < (takeLast rb.capacity d).length)]

theorem take_append_two (a b c : List α) (n : Nat) (h : n = a.length + b.length) :
    (a ++ b ++ c).take n = a ++ b := by
  subst h
  rw [List.append_assoc, List.take_append, List.take_left]

theorem drop_append_two (a b c : List α) (n : Nat) (h : n = a.length + b.length) :
    (a ++ b ++ c).drop n = c := by
  subst h
  rw [List.append_assoc, List.drop_append, List.drop_left]

/-- Rotating the last `C` entries: the no-wrap shape. -/
theorem rot_takeLast_small (D d : List α) (C i : Nat) (hD : D.length = C)
    (hi : i ≤ C) (hm : i + d.length ≤ C) :
    takeLast C (D.drop i ++ D.take i ++ d)
      = D.drop (i + d.length) ++ (D.take i ++ d) := by
  rw [List.append_assoc, takeLast, List.length_append, List.length_append,
    List.length_drop, List.length_take,
    show D.length - i + (min i D.length + d.length) - C = d.length by omega,
    List.drop_append_of_le_length (by simp; omega), List.drop_drop]

/-- Rotating the last `C` entries: the wrap shape, starting from a
non-full buffer (valid prefix `D.take i` only). -/
theorem takeLast_take_append (D d : List α) (C i : Nat) (hD : D.length = C)
    (hi : i ≤ C) (hw : C ≤ i + d.length) (hd : d.length ≤ C) :
    takeLast C (D.take i ++ d) = (D.take i).drop (i + d.length - C) ++ d := by
  rw [takeLast, List.length_append, List.length_take,
    show min i D.length + d.length - C = i + d.length - C by omega,
    List.drop_append_of_le_length (by simp; omega)]

/-- Rotating the last `C` entries: the wrap shape, starting from a full
buffer (valid rows `D.drop i ++ D.take i`). -/
theorem takeLast_rot_append (D d : List α) (C i : Nat) (hD : D.length = C)
    (hi : i ≤ C) (hw : C ≤ i + d.length) (hd : d.length ≤ C) :
    takeLast C (D.drop i ++ D.take i ++ d)
      = (D.take i).drop (i + d.length - C) ++ d := by
  rw [List.append_assoc, takeLast, List.length_append, List.length_append,
    List.length_drop, List.length_take,
    show D.length - i + (min i D.length + d.length) - C = d.length by omega,
    List.drop_append_eq_append_drop, List.drop_eq_nil_of_le (by simp; omega),
    List.nil_append, List.length_drop, hD,
    List.drop_append_of_le_length (by simp; omega)]
  congr 2
  omega

/-- The logical content of one `append` call on a well-formed buffer:
afterwards `get` holds the last `capacity` entries of the old `get`
followed by the appended chunk.  This is the semantic core of the wrap
algorithm. -/
theorem get_append_le (rb : RingBuffer α) (d : List α)
    (hD : rb.data.length = rb.capacity) (hi : rb.idx < rb.capacity)
    (hd : d.length ≤ rb.capacity) :
    (rb.append d).get = takeLast rb.capacity (rb.get ++ d) := by
  rcases Nat.eq_zero_or_pos d.length with h0 | hpos
  · have hdnil : d = [] := List.length_eq_zero.mp h0
    subst hdnil
    rw [append_nil, List.append_nil,
      takeLast_eq_self _ _
        (by rw [length_get rb hD (Nat.le_of_lt hi)]; split <;> omega)]
  · have hti : (rb.data.take rb.idx).length = rb.idx := by simp; omega
    by_cases hs : rb.idx + d.length < rb.capacity
    · rw [append_simple_state rb d (by omega) hs]
      by_cases hf : rb.full = true
      · simp only [RingBuffer.get, hf, eq_self_iff_true, if_true]
        rw [drop_append_two _ _ _ _ (by omega),
          take_append_two _ _ _ _ (by omega),
          rot_takeLast_small rb.data d rb.capacity rb.idx hD (by omega) (by omega)]
      · simp only [RingBuffer.get, hf, eq_self_iff_true, if_true,
          Bool.false_eq_true, if_false]
        rw [take_append_two _ _ _ _ (by omega),
          takeLast_eq_self _ _ (by simp; omega)]
    · rw [append_wrap_state rb d hD hi (by omega) hd (by omega)]
      have hdt : (d.drop (rb.capacity - rb.idx)).length
          = rb.idx + d.length - rb.capacity := by simp; omega
      by_cases hf : rb.full = true
      · simp only [RingBuffer.get, hf, eq_self_iff_true, if_true]
        rw [List.append_assoc, List.drop_left' hdt, List.take_left' hdt,
          List.append_assoc, List.take_append_drop,
          takeLast_rot_append rb.data d rb.capacity rb.idx hD (by omega) (by omega) hd]
      · simp only [RingBuffer.get, hf, eq_self_iff_true, if_true,
          Bool.false_eq_true, if_false]
        rw [List.append_assoc, List.drop_left' hdt, List.take_left' hdt,
          List.append_assoc, List.take_append_drop,
          takeLast_take_append rb.data d rb.capacity rb.idx hD (by omega) (by omega) hd]

/-- `get_append_le` extended to arbitrary chunk lengths via the truncation
step: one `append` always leaves `get` holding the last `capacity` entries
of the old `get` followed by the chunk. -/
theorem get_append (rb : RingBuffer α) (d : List α)
    (hD : rb.data.length = rb.capacity) (hi : rb.idx < rb.capacity) :
    (rb.append d).get = takeLast rb.capacity (rb.get ++ d) := by
  by_cases hlong : rb.capacity < d.length
  · rw [append_trunc rb d (by omega) hlong,
      get_append_le rb _ hD hi (by rw [length_takeLast]; omega),
      takeLast_append_of_le _ _ _ (by rw [length_takeLast]; omega),
      takeLast_append_of_le _ _ _ (by omega),
      takeLast_eq_self _ _ (by rw [length_takeLast]; omega)]
  · exact get_append_le rb d hD hi (by omega)

theorem wf_append_le (rb : RingBuffer α) (d : List α)
    (hD : rb.data.length = rb.capacity) (hi : rb.idx < rb.capacity)
    (hd : d.length ≤ rb.capacity) :
    (rb.append d).data.length = rb.capacity ∧ (rb.append d).idx < rb.capacity := by
  rcases Nat.eq_zero_or_pos d.length with h0 | hpos
  · have hdnil : d = [] := List.length_eq_zero.mp h0
    subst hdnil
    rw [append_nil]
    exact ⟨hD, hi⟩
  · by_cases hs : rb.idx + d.length < rb.capacity
    · rw [append_simple_state rb d (by omega) hs]
      refine ⟨?_, ?_⟩
      · simp
        omega
      · exact hs
    · rw [append_wrap_state rb d hD hi (by omega) hd (by omega)]
      refine ⟨?_, ?_⟩
      · simp
        omega
      · show rb.idx + d.length - rb.capacity < rb.capacity
        omega

theorem wf_append (rb : RingBuffer α) (d : List α)
    (hD : rb.data.length = rb.capacity) (hi : rb.idx < rb.capacity) :
    (rb.append d).data.length = rb.capacity ∧ (rb.append d).idx < rb.capacity := by
  by_cases hlong : rb.capacity < d.length
  · rw [append_trunc rb d (by omega) hlong]
    exact wf_append_le rb _ hD hi (by rw [length_takeLast]; omega)
  · exact wf_append_le rb d hD hi (by omega)

/-- One `append` call sets `full` exactly when it was already set or the
total live data would reach `capacity`. -/
theorem full_append_eq (rb : RingBuffer α) (d : List α)
    (hD : rb.data.length = rb.capacity) (hi : rb.idx < rb.capacity) :
    (rb.append d).full
      = (rb.full || decide (rb.capacity ≤ rb.get.length + d.length)) := by
  by_cases hf : rb.full = true
  · rw [full_append_of_full rb d hf, hf, Bool.true_or]
  · have hf' : rb.full = false := by revert hf; cases rb.full <;> simp
    have hlg : rb.get.length = rb.idx := by
      rw [length_get rb hD (Nat.le_of_lt hi), hf']
      simp
    rw [hf', Bool.false_or, hlg]
    by_cases hlong : rb.capacity < d.length
    · rw [append_trunc rb d (by omega) hlong]
      have h1 : (takeLast rb.capacity d).length = rb.capacity := by
        rw [length_takeLast]; omega
      rw [append_wrap_state rb _ hD hi (by omega) (by omega) (by omega)]
      have hle : rb.capacity ≤ rb.idx + d.length := by omega
      simp [hle]
    · rcases Nat.eq_zero_or_pos d.length with h0 | hpos
      · have hdnil : d = [] := List.length_eq_zero.mp h0
        subst hdnil
        rw [append_nil, hf']
        simp
        omega
      · by_cases hs : rb.idx + d.length < rb.capacity
        · rw [append_simple_state rb d (by omega) hs, hf']
          have hlt : ¬ rb.capacity ≤ rb.idx + d.length := by omega
          simp [hlt]
        · rw [append_wrap_state rb d hD hi (by omega) (by omega) (by omega)]
          have hle : rb.capacity ≤ rb.idx + d.length := by omega
          simp [hle]

theorem takeLast_takeLast_append (n : Nat) (x c : List α) :
    takeLast n (takeLast n x ++ c) = takeLast n (x ++ c) := by
  by_cases hc : n ≤ c.length
  · rw [takeLast_append_of_le _ _ _ hc, takeLast_append_of_le _ _ _ hc]
  · rw [takeLast_append_of_ge _ _ _ (by omega), takeLast_append_of_ge _ _ _ (by omega),
      takeLast_takeLast _ _ _ (by omega)]

/-- The iterated invariant: after any sequence of `append` calls on a
well-formed buffer, the buffer is still well-formed, `get` holds the last
`capacity` rows of the original `get` followed by all appended rows, and
`full` records whether those rows ever reached `capacity`. -/
theorem appendAll_wf_get (rb : RingBuffer α) (chunks : List (List α))
    (hD : rb.data.length = rb.capacity) (hi : rb.idx < rb.capacity) :
    (appendAll rb chunks).capacity = rb.capacity ∧
    (appendAll rb chunks).data.length = rb.capacity ∧
    (appendAll rb chunks).idx < rb.capacity ∧
    (appendAll rb chunks).get = takeLast rb.capacity (rb.get ++ chunks.flatten) ∧
    (appendAll rb chunks).full
      = (rb.full || decide (rb.capacity ≤ rb.get.length + chunks.flatten.length)) := by
  induction chunks using List.reverseRecOn with
  | nil =>
    have hg : rb.get.length ≤ rb.capacity := by
      rw [length_get rb hD (Nat.le_of_lt hi)]
      split <;> omega
    refine ⟨rfl, hD, hi, ?_, ?_⟩
    · simp [appendAll, takeLast_eq_self _ _ hg]
    · simp only [appendAll, List.foldl_nil, List.flatten_nil, List.length_nil,
        Nat.add_zero]
      by_cases hf : rb.full = true
      · simp [hf]
      · have hf' : rb.full = false := by revert hf; cases rb.full <;> simp
        have hlg : rb.get.length = rb.idx := by
          rw [length_get rb hD (Nat.le_of_lt hi), hf']
          simp
        have hlt : ¬ rb.capacity ≤ rb.get.length := by omega
        simp [hf', hlt]
  | append_singleton cs c ih =>
    have hstep : appendAll rb (cs ++ [c]) = (appendAll rb cs).append c := by
      simp [appendAll]
    obtain ⟨ih1, ih2, ih3, ih4, ih5⟩ := ih
    have hD' : (appendAll rb cs).data.length = (appendAll rb cs).capacity := by
      rw [ih1, ih2]
    have hi' : (appendAll rb cs).idx < (appendAll rb cs).capacity := by
      rw [ih1]
      exact ih3
    refine ⟨?_, ?_, ?_, ?_, ?_⟩
    · rw [hstep, capacity_append, ih1]
    · rw [hstep]
      have h := (wf_append _ c hD' hi').1
      rw [ih1] at h
      exact h
    · rw [hstep]
      have h := (wf_append _ c hD' hi').2
      rw [ih1] at h
      exact h
    · rw [hstep, get_append _ c hD' hi', ih1, ih4, takeLast_takeLast_append,
        List.flatten_append, List.flatten_cons, List.flatten_nil, List.append_nil,
        List.append_assoc]
    · rw [hstep, full_append_eq _ c hD' hi', ih1, ih5, ih4,
        List.flatten_append, List.flatten_cons, List.flatten_nil, List.append_nil]
      by_cases hfull : rb.full = true
      · simp [hfull]
      · have hf' : rb.full = false := by revert hfull; cases rb.full <;> simp
        rw [hf']
        simp only [Bool.false_or, length_takeLast, List.length_append]
        by_cases hreach : rb.capacity ≤ rb.get.length + cs.flatten.length
        · rw [decide_eq_true hreach, Bool.true_or, decide_eq_true
            (show rb.capacity ≤ rb.get.length + (cs.flatten.length + c.length) by omega)]
        · rw [decide_eq_false hreach, Bool.false_or,
            Nat.min_eq_right (by omega), Nat.add_assoc]

theorem get_fresh (C : Nat) (dflt : α) : (fresh C dflt).get = [] := by
  simp [fresh, RingBuffer.get]

/-- `appendAll_wf_get` specialized to a freshly constructed buffer: the data
seen by `get` is exactly the last `C` rows ever appended, and `full` records
whether at least `C` rows were ever appended. -/
theorem fresh_wf_get (C : Nat) (dflt : α) (chunks : List (List α)) (hC : 1 ≤ C) :
    (appendAll (fresh C dflt) chunks).capacity = C ∧
    (appendAll (fresh C dflt) chunks).data.length = C ∧
    (appendAll (fresh C dflt) chunks).idx < C ∧
    (appendAll (fresh C dflt) chunks).get = takeLast C chunks.flatten ∧
    (appendAll (fresh C dflt) chunks).full = decide (C ≤ chunks.flatten.length) := by
  have hD0 : (fresh C dflt).data.length = (fresh C dflt).capacity := by simp [fresh]
  have hi0 : (fresh C dflt).idx < (fresh C dflt).capacity := by
    simp only [fresh]
    omega
  obtain ⟨h1, h2, h3, h4, h5⟩ := appendAll_wf_get (fresh C dflt) chunks hD0 hi0
  refine ⟨h1, h2, h3, ?_, ?_⟩
  · rw [h4, get_fresh, List.nil_append]
    rfl
  · rw [h5, get_fresh]
    simp [fresh]

theorem flatten_map_singleton (xs : List α) :
    (xs.map (fun r => [r])).flatten = xs := by
  induction xs with
  | nil => rfl
  | cons a t ih => simp [ih]

/-- The write cursor stays below `capacity` across one `append`, for any
state with a valid cursor (no assumption on the storage). -/
theorem idx_append_lt (rb : RingBuffer α) (d : List α) (h : rb.idx < rb.capacity) :
    (rb.append d).idx < rb.capacity := by
  simp only [RingBuffer.append]
  repeat' split
  all_goals simp_all [length_takeLast]
  all_goals omega

/-- C7.  Empty append is a no-op: for every buffer state (reachable or not),
`append []` leaves `write_index`, `is_full` and the stored rows unchanged,
and a subsequent `get` returns the same result as before. -/
theorem claim7_append_nil_noop (rb : RingBuffer α) :
    rb.append [] = rb ∧ (rb.append []).get = rb.get := by
  constructor
  · exact append_nil rb
  · rw [append_nil]

/-- C9.  `is_full` is monotone: no step of the transition relation (`append`
with any chunk; `get` is pure and returns no new state) takes `full` from
`true` to `false`. -/
theorem claim9_full_monotone (rb : RingBuffer α) (d : List α) (h : rb.full = true) :
    (rb.append d).full = true :=
  full_append_of_full rb d h

/-- Witness for C9 at a concrete full buffer and chunk. -/
theorem claim9_full_monotone_witness :
    (RingBuffer.mk 2 [5, 6] true 1).full = true ∧
      ((RingBuffer.mk 2 [(5 : Nat), 6] true 1).append [7]).full = true :=
  ⟨rfl, claim9_full_monotone (RingBuffer.mk 2 [(5 : Nat), 6] true 1) [7] rfl⟩

/-- C1.  Exact-fit boundary: on a well-formed buffer, a non-empty chunk with
`write_index + len(rows) = capacity` takes the wrap branch (the fits test is
strict `<`), after which `is_full = true`, `write_index = 0`, the storage is
the old rows `[0, write_index)` followed by the chunk, and `get` returns
exactly that (all rows oldest to newest). -/
theorem claim1_exact_fit (rb : RingBuffer α) (rows : List α)
    (hD : rb.data.length = rb.capacity)
    (hfit : rb.idx + rows.length = rb.capacity) (hne : rows ≠ []) :
    (rb.append rows).full = true ∧ (rb.append rows).idx = 0 ∧
    (rb.append rows).data = rb.data.take rb.idx ++ rows ∧
    (rb.append rows).get = rb.data.take rb.idx ++ rows := by
  have hlen : rows.length ≠ 0 := by
    intro h
    exact hne (List.length_eq_zero.mp h)
  have hi : rb.idx < rb.capacity := by omega
  rw [append_wrap_state rb rows hD hi hlen (by omega) (by omega),
    show rb.capacity - rb.idx = rows.length by omega,
    show rb.idx + rows.length - rb.capacity = 0 by omega]
  refine ⟨rfl, rfl, ?_, ?_⟩
  · simp
  · simp [RingBuffer.get]

/-- Witness for C1: capacity 2, one row already written, a one-row chunk
landing exactly on the boundary. -/
theorem claim1_exact_fit_witness :
    ((RingBuffer.mk 2 [(10 : Nat), 20] false 1).data.length
        = (RingBuffer.mk 2 [(10 : Nat), 20] false 1).capacity ∧
      (RingBuffer.mk 2 [(10 : Nat), 20] false 1).idx + [(30 : Nat)].length
        = (RingBuffer.mk 2 [(10 : Nat), 20] false 1).capacity ∧
      [(30 : Nat)] ≠ []) ∧
    (((RingBuffer.mk 2 [(10 : Nat), 20] false 1).append [30]).full = true ∧
      ((RingBuffer.mk 2 [(10 : Nat), 20] false 1).append [30]).idx = 0 ∧
      ((RingBuffer.mk 2 [(10 : Nat), 20] false 1).append [30]).data
        = (RingBuffer.mk 2 [(10 : Nat), 20] false 1).data.take
            (RingBuffer.mk 2 [(10 : Nat), 20] false 1).idx ++ [30] ∧
      ((RingBuffer.mk 2 [(10 : Nat), 20] false 1).append [30]).get
        = (RingBuffer.mk 2 [(10 : Nat), 20] false 1).data.take
            (RingBuffer.mk 2 [(10 : Nat), 20] false 1).idx ++ [30]) :=
  ⟨⟨by decide, by decide, by decide⟩,
    claim1_exact_fit (RingBuffer.mk 2 [(10 : Nat), 20] false 1) [30]
      (by decide) (by decide) (by decide)⟩

/-- C2 counterexample: the claim says every capacity ≤ 0 is rejected with a
construction error, but `__init__` performs no validation and
`np.empty((0, channels))` succeeds, so capacity 0 silently constructs a
zero-capacity buffer. -/
theorem claim2_counterexample_zero_capacity :
    RingBuffer.make ((0 : Int), (1 : Int)) (0 : Nat)
      = Except.ok { capacity := 0, data := [], full := false, idx := 0 } :=
  rfl

/-- C2 (amended).  Construction with negative capacity (or negative
channels) fails with numpy's construction error; capacity 0 is accepted
silently (no validation in the source); every capacity ≥ 0 — in particular
every capacity ≥ 1 — constructs successfully with `write_index = 0` and
`is_full = false`. -/
theorem claim2_construction (cap ch : Int) (dflt : α) (hch : 0 ≤ ch) :
    (cap < 0 → RingBuffer.make (cap, ch) dflt
        = Except.error "negative dimensions are not allowed") ∧
    (0 ≤ cap → RingBuffer.make (cap, ch) dflt
        = Except.ok { capacity := cap.toNat, data := List.replicate cap.toNat dflt,
                      full := false, idx := 0 }) := by
  constructor
  · intro h
    simp [RingBuffer.make, npEmpty, h, Except.map]
  · intro h
    have h1 : ¬ (cap < 0 ∨ ch < 0) := by omega
    simp [RingBuffer.make, npEmpty, h1, Except.map]

/-- Witness for C2 (amended) at capacity 1, channels 1. -/
theorem claim2_construction_witness :
    ((0 : Int) ≤ (1 : Int)) ∧
    (((1 : Int) < 0 → RingBuffer.make ((1 : Int), (1 : Int)) (0 : Nat)
        = Except.error "negative dimensions are not allowed") ∧
      ((0 : Int) ≤ (1 : Int) → RingBuffer.make ((1 : Int), (1 : Int)) (0 : Nat)
        = Except.ok { capacity := (1 : Int).toNat,
                      data := List.replicate (1 : Int).toNat (0 : Nat),
                      full := false, idx := 0 })) :=
  ⟨by decide, claim2_construction 1 1 0 (by decide)⟩

/-- C3.  Oversized append on a well-formed buffer keeps only the last
`capacity` rows of the chunk, so `get` returns exactly those rows oldest to
newest; and the result of `get` is the same as appending the chunk's rows
one at a time. -/
theorem claim3_oversized (rb : RingBuffer α) (rows : List α)
    (hD : rb.data.length = rb.capacity) (hi : rb.idx < rb.capacity)
    (hlen : rb.capacity < rows.length) :
    (rb.append rows).get = rows.drop (rows.length - rb.capacity) ∧
    (rb.append rows).get = (appendAll rb (rows.map (fun r => [r]))).get := by
  have h1 : (rb.append rows).get = takeLast rb.capacity rows := by
    rw [get_append rb rows hD hi, takeLast_append_of_le _ _ _ (by omega)]
  constructor
  · exact h1
  · rw [h1, (appendAll_wf_get rb (rows.map (fun r => [r])) hD hi).2.2.2.1,
      flatten_map_singleton, takeLast_append_of_le _ _ _ (by omega)]

/-- Witness for C3: capacity 2 buffer, a 5-row chunk. -/
theorem claim3_oversized_witness :
    ((fresh 2 (0 : Nat)).data.length = (fresh 2 (0 : Nat)).capacity ∧
      (fresh 2 (0 : Nat)).idx < (fresh 2 (0 : Nat)).capacity ∧
      (fresh 2 (0 : Nat)).capacity < [1, 2, 3, 4, 5].length) ∧
    (((fresh 2 (0 : Nat)).append [1, 2, 3, 4, 5]).get
        = [1, 2, 3, 4, 5].drop ([1, 2, 3, 4, 5].length - (fresh 2 (0 : Nat)).capacity) ∧
      ((fresh 2 (0 : Nat)).append [1, 2, 3, 4, 5]).get
        = (appendAll (fresh 2 (0 : Nat)) ([1, 2, 3, 4, 5].map (fun r => [r]))).get) :=
  ⟨⟨by decide, by decide, by decide⟩,
    claim3_oversized (fresh 2 (0 : Nat)) [1, 2, 3, 4, 5]
      (by decide) (by decide) (by decide)⟩

/-- C4.  Capacity bound: starting from a fresh buffer of capacity `C ≥ 1`,
after every finite sequence of appends `len(get()) ≤ C`, with equality as
soon as at least `C` rows in total have been appended. -/
theorem claim4_capacity_bound (C : Nat) (dflt : α) (chunks : List (List α))
    (hC : 1 ≤ C) :
    (appendAll (fresh C dflt) chunks).get.length ≤ C ∧
    (C ≤ chunks.flatten.length →
      (appendAll (fresh C dflt) chunks).get.length = C) := by
  have h := (fresh_wf_get C dflt chunks hC).2.2.2.1
  rw [h, length_takeLast]
  constructor
  · omega
  · intro hreach
    omega

/-- Witness for C4: capacity 2, three rows appended in one chunk. -/
theorem claim4_capacity_bound_witness :
    1 ≤ 2 ∧
    ((appendAll (fresh 2 (0 : Nat)) [[1, 2, 3]]).get.length ≤ 2 ∧
      (2 ≤ [[1, 2, 3]].flatten.length →
        (appendAll (fresh 2 (0 : Nat)) [[1, 2, 3]]).get.length = 2)) :=
  ⟨by decide, claim4_capacity_bound 2 0 [[1, 2, 3]] (by decide)⟩

/-- C5.  Order preservation: appending `n ≤ C` rows to a freshly
constructed buffer of capacity `C ≥ 1` and then calling `get` returns
exactly those rows in order. -/
theorem claim5_order_preservation (C : Nat) (dflt : α) (rows : List α)
    (hC : 1 ≤ C) (hn : rows.length ≤ C) :
    ((fresh C dflt).append rows).get = rows := by
  rw [get_append (fresh C dflt) rows (by simp [fresh]) (by simp only [fresh]; omega),
    get_fresh, List.nil_append]
  exact takeLast_eq_self _ _ hn

/-- Witness for C5: capacity 3, two rows. -/
theorem claim5_order_preservation_witness :
    (1 ≤ 3 ∧ [7, 8].length ≤ 3) ∧
    ((fresh 3 (0 : Nat)).append [7, 8]).get = [7, 8] :=
  ⟨⟨by decide, by decide⟩,
    claim5_order_preservation 3 0 [7, 8] (by decide) (by decide)⟩

/-- C6.  Overwrite correctness: appending exactly `C` rows to a fresh
buffer of capacity `C ≥ 1` and then one more row `x` yields `get` equal to
the first chunk with its oldest row dropped and `x` at the end. -/
theorem claim6_overwrite (C : Nat) (dflt : α) (rows : List α) (x : α)
    (hC : 1 ≤ C) (hr : rows.length = C) :
    (((fresh C dflt).append rows).append [x]).get = rows.drop 1 ++ [x] := by
  have hD0 : (fresh C dflt).data.length = (fresh C dflt).capacity := by simp [fresh]
  have hi0 : (fresh C dflt).idx < (fresh C dflt).capacity := by
    simp only [fresh]
    omega
  have hw := wf_append (fresh C dflt) rows hD0 hi0
  have hcap := capacity_append (fresh C dflt) rows
  have hD1 : ((fresh C dflt).append rows).data.length
      = ((fresh C dflt).append rows).capacity := by
    rw [hcap]
    exact hw.1
  have hi1 : ((fresh C dflt).append rows).idx
      < ((fresh C dflt).append rows).capacity := by
    rw [hcap]
    exact hw.2
  rw [get_append _ [x] hD1 hi1, hcap, get_append _ rows hD0 hi0, get_fresh,
    List.nil_append]
  show takeLast C (takeLast C rows ++ [x]) = rows.drop 1 ++ [x]
  rw [takeLast_takeLast_append, takeLast_append_of_ge _ _ _ (by simp; omega)]
  congr 1
  simp only [takeLast, hr, List.length_cons, List.length_nil]
  congr 1
  omega

/-- Witness for C6: capacity 2, rows `[5, 6]`, extra row `7`. -/
theorem claim6_overwrite_witness :
    (1 ≤ 2 ∧ [5, 6].length = 2) ∧
    (((fresh 2 (0 : Nat)).append [5, 6]).append [7]).get = [5, 6].drop 1 ++ [7] :=
  ⟨⟨by decide, by decide⟩, claim6_overwrite 2 0 [5, 6] 7 (by decide) (by decide)⟩

/-- C8.  Write-cursor range: from a fresh buffer of capacity `C ≥ 1`,
`0 ≤ write_index < C` (the lower bound is inherent to `Nat`) holds after
construction and after every sequence of appends; moreover a single
`append` preserves `idx < capacity` from any state (`get` is pure and
modifies nothing). -/
theorem claim8_write_index_range (C : Nat) (dflt : α) (chunks : List (List α))
    (hC : 1 ≤ C) :
    (appendAll (fresh C dflt) chunks).idx < C ∧
    (∀ rb : RingBuffer α, ∀ d : List α,
      rb.idx < rb.capacity → (rb.append d).idx < rb.capacity) := by
  refine ⟨(fresh_wf_get C dflt chunks hC).2.2.1, ?_⟩
  intro rb d h
  exact idx_append_lt rb d h

/-- Witness for C8: capacity 2, two chunks. -/
theorem claim8_write_index_range_witness :
    1 ≤ 2 ∧
    ((appendAll (fresh 2 (0 : Nat)) [[1], [2, 3]]).idx < 2 ∧
      (∀ rb : RingBuffer Nat, ∀ d : List Nat,
        rb.idx < rb.capacity → (rb.append d).idx < rb.capacity)) :=
  ⟨by decide, claim8_write_index_range 2 0 [[1], [2, 3]] (by decide)⟩

/-- C10.  General reconstruction: from a fresh buffer of capacity `C ≥ 1`,
after any finite sequence of appends, `get` returns exactly the last
`min(C, N)` rows of the concatenation of all appended chunks in order
(`drop (N - C)` of the concatenation, `N` the total number of appended
rows), and `is_full = (N ≥ C)`; quantifying over all chunk lists covers
every point of every call sequence. -/
theorem claim10_reconstruction (C : Nat) (dflt : α) (chunks : List (List α))
    (hC : 1 ≤ C) :
    (appendAll (fresh C dflt) chunks).get
        = chunks.flatten.drop (chunks.flatten.length - C) ∧
    (appendAll (fresh C dflt) chunks).full = decide (C ≤ chunks.flatten.length) := by
  obtain ⟨h1, h2, h3, h4, h5⟩ := fresh_wf_get C dflt chunks hC
  exact ⟨h4, h5⟩

/-- Witness for C10: capacity 2, chunks `[[1], [2, 3]]`. -/
theorem claim10_reconstruction_witness :
    1 ≤ 2 ∧
    ((appendAll (fresh 2 (0 : Nat)) [[1], [2, 3]]).get
        = [[1], [2, 3]].flatten.drop ([[1], [2, 3]].flatten.length - 2) ∧
      (appendAll (fresh 2 (0 : Nat)) [[1], [2, 3]]).full
        = decide (2 ≤ [[1], [2, 3]].flatten.length)) :=
  ⟨by decide, claim10_reconstruction 2 0 [[1], [2, 3]] (by decide)⟩

end Wyrm
